import Mathlib

/-!
# Message annotation: interval resolution and rendering

A shallow embedding of `client/js/libs/handlebars/parse.js`: the step that sorts the
candidate parts found by the channel, link, emoji and name finders and drops the ones
that intersect an already kept part, and the step that renders text parts and style
fragments as markup.
-/

namespace Parse

/-- The metadata a finder attaches to a part: `channel`, `link`, `emoji` or `nick`. -/
inductive Entity where
  | channel (value : String)
  | link (value : String)
  | emoji (value : String)
  | nick (value : String)
  deriving DecidableEq, Repr

/-- Position of the finder in the concatenation
`channelParts.concat(linkParts).concat(emojiParts).concat(nameParts)`. -/
def Entity.rank : Entity → Nat
  | .channel _ => 0
  | .link _ => 1
  | .emoji _ => 2
  | .nick _ => 3

/-- A part returned by a finder: `start` and `end` markers (`end_` here, `end` being
reserved) and the finder's metadata. -/
structure Part where
  start : Int
  end_ : Int
  entity : Entity
  deriving DecidableEq, Repr

/-- Modelled from the spec: `ircmessageparser/anyIntersection` is required by `parse.js`
but is not among the sources. The specification describes it as "intersect (any shared
offset)" over ranges whose end is exclusive: two ranges intersect when some offset lies
in both. -/
def anyIntersection (a b : Part) : Bool :=
  decide (max a.start b.start < min a.end_ b.end_)

/-- The comparator handed to `sort`: `a.start - b.start || b.end - a.end`. -/
def compareParts (a b : Part) : Int :=
  if a.start - b.start ≠ 0 then a.start - b.start else b.end_ - a.end_

/-- The order induced by the comparator: `a` may stand before `b`. -/
def partLE (a b : Part) : Prop := compareParts a b ≤ 0

instance : DecidableRel partLE := fun a b => by unfold partLE; exact inferInstance

instance : IsTotal Part partLE :=
  ⟨fun a b => by unfold partLE compareParts; split_ifs <;> omega⟩

instance : IsTrans Part partLE :=
  ⟨fun a b c => by unfold partLE compareParts; split_ifs <;> omega⟩

/-- `Array.prototype.sort` with the comparator of `parse`. The sort is stable, and a
stable sort has one possible result, which insertion from the right computes. -/
def sortParts (l : List Part) : List Part := l.insertionSort partLE

/-- The callback of `reduce`: `curr` is dropped when some kept part intersects it. -/
def resolveStep (prev : List Part) (curr : Part) : List Part :=
  if prev.any (fun p => anyIntersection p curr) then prev else prev ++ [curr]

/-- The `.sort(...).reduce(..., [])` chain of `parse` on the concatenated candidates. -/
def resolve (cands : List Part) : List Part :=
  (sortParts cands).foldl resolveStep []

/-- The `parts` constant of `parse`: concatenation in the order channel, link, emoji,
name, then sort and reduce. -/
def parts (channelParts linkParts emojiParts nameParts : List Part) : List Part :=
  resolve (channelParts ++ linkParts ++ emojiParts ++ nameParts)

/-- Some `a` stands in `l` with no `b` before it. -/
def Before (a b : Part) (l : List Part) : Prop :=
  ∃ x y, l = x ++ a :: y ∧ b ∉ x

/-! ## Rendering -/

/-- A style fragment as `createFragment` reads it. `textColor` and `bgColor` are
`undefined` or a colour number; `hexColor` and `hexBgColor` are `undefined` or a string. -/
structure Fragment where
  text : String
  bold : Bool
  textColor : Option Nat
  bgColor : Option Nat
  italic : Bool
  underline : Bool
  strikethrough : Bool
  monospace : Bool
  hexColor : Option String
  hexBgColor : Option String
  deriving DecidableEq, Repr

/-- Truthiness of an optional string in a condition such as `if (fragment.hexColor)`:
`undefined` and the empty string are falsy. -/
def truthy : Option String → Bool
  | some s => decide (s ≠ "")
  | none => false

/-- The value interpolated for an optional string that passed the truthiness test. -/
def strOf (o : Option String) : String := o.getD ""

/-- `Array.prototype.join("")`. -/
def join (l : List String) : String := l.foldr (fun s r => s ++ r) ""

/-- The `classes` array that `createFragment` fills, in push order. -/
def classes (fragment : Fragment) : List String :=
  (if fragment.bold then ["irc-bold"] else []) ++
  (match fragment.textColor with
    | some n => ["irc-fg" ++ toString n]
    | none => []) ++
  (match fragment.bgColor with
    | some n => ["irc-bg" ++ toString n]
    | none => []) ++
  (if fragment.italic then ["irc-italic"] else []) ++
  (if fragment.underline then ["irc-underline"] else []) ++
  (if fragment.strikethrough then ["irc-strikethrough"] else []) ++
  (if fragment.monospace then ["irc-monospace"] else [])

/-- The initial value of `attributes`: the `class` attribute, when a class was pushed. -/
def classAttribute (fragment : Fragment) : String :=
  if (classes fragment).length ≠ 0 then
    " class=\"" ++ " ".intercalate (classes fragment) ++ "\""
  else ""

/-- What the `if (fragment.hexColor)` block appends to `attributes`. -/
def styleAttribute (fragment : Fragment) : String :=
  if truthy fragment.hexColor then
    " style=\"color:#" ++ strOf fragment.hexColor ++
      (if truthy fragment.hexBgColor then
        ";background-color:#" ++ strOf fragment.hexBgColor
      else "") ++ "\""
  else ""

/-- The final value of `attributes` in `createFragment`. -/
def attributes (fragment : Fragment) : String :=
  classAttribute fragment ++ styleAttribute fragment

/-- The function `createFragment`, over the `Handlebars.Utils.escapeExpression` in use. -/
def createFragment (escapeExpression : String → String) (fragment : Fragment) : String :=
  let escapedText := escapeExpression fragment.text
  if (attributes fragment).length ≠ 0 then
    "<span" ++ attributes fragment ++ ">" ++ escapedText ++ "</span>"
  else escapedText

/-- A text part returned by `merge`, as the rendering callback reads it: the optional
`link`, `channel`, `emoji` and `nick` values and the fragments. -/
structure TextPart where
  link : Option String
  channel : Option String
  emoji : Option String
  nick : Option String
  fragments : List Fragment
  deriving DecidableEq, Repr

/-- The callback mapped over the text parts at the end of `parse`, over the
`escapeExpression` and the `colorClass` in use. -/
def renderTextPart (escapeExpression colorClass : String → String)
    (textPart : TextPart) : String :=
  let fragments := join (textPart.fragments.map (createFragment escapeExpression))
  if truthy textPart.link then
    let escapedLink := escapeExpression (strOf textPart.link)
    "<a href=\"" ++ escapedLink ++ "\" target=\"_blank\" rel=\"noopener\">" ++ fragments
      ++ "</a>"
  else if truthy textPart.channel then
    let escapedChannel := escapeExpression (strOf textPart.channel)
    "<span class=\"inline-channel\" role=\"button\" tabindex=\"0\" data-chan=\""
      ++ escapedChannel ++ "\">" ++ fragments ++ "</span>"
  else if truthy textPart.emoji then
    "<span class=\"emoji\">" ++ fragments ++ "</span>"
  else if truthy textPart.nick then
    let nick := escapeExpression (strOf textPart.nick)
    "<span role=\"button\" class=\"user " ++ colorClass nick ++ "\" data-name=\"" ++ nick
      ++ "\">" ++ fragments ++ "</span>"
  else fragments

/-- The `.map(...).join("")` that ends `parse`, on the text parts returned by `merge`. -/
def renderTextParts (escapeExpression colorClass : String → String)
    (textParts : List TextPart) : String :=
  join (textParts.map (renderTextPart escapeExpression colorClass))

/-- The characters that delimit tags and attribute values. -/
def isMarkup (c : Char) : Bool := c == '<' || c == '>' || c == Char.ofNat 34

/-- The tag and attribute delimiters of a string, in order. -/
def markupOf (s : String) : List Char := s.data.filter isMarkup

/-- The escape function that maps every string to the empty string: rendering with it
leaves the wrapper templates alone. -/
def blank (_ : String) : String := ""

/-- The delimiters that the fixed template of `createFragment` contributes for a
fragment: those of the `span` tags, of the `class` attribute when a class was pushed and
of the `style` attribute when `hexColor` is truthy. It reads no text and no colour value. -/
def fragmentTemplateMarkup (fragment : Fragment) : List Char :=
  if (classes fragment).length ≠ 0 ∨ truthy fragment.hexColor = true then
    markupOf "<span" ++
      (if (classes fragment).length ≠ 0 then markupOf " class=\"" ++ markupOf "\"" else []) ++
      (if truthy fragment.hexColor = true then
        markupOf " style=\"color:#" ++ markupOf "\"" else []) ++
      markupOf ">" ++ markupOf "</span>"
  else []

/-- The delimiters that the fixed wrapper templates contribute for a text part: those of
the wrapper chosen by the kind of the part, around those of its fragments. -/
def partTemplateMarkup (textPart : TextPart) : List Char :=
  let fragments := (textPart.fragments.map fragmentTemplateMarkup).flatten
  if truthy textPart.link then
    markupOf "<a href=\"" ++ markupOf "\" target=\"_blank\" rel=\"noopener\">" ++ fragments
      ++ markupOf "</a>"
  else if truthy textPart.channel then
    markupOf "<span class=\"inline-channel\" role=\"button\" tabindex=\"0\" data-chan=\""
      ++ markupOf "\">" ++ fragments ++ markupOf "</span>"
  else if truthy textPart.emoji then
    markupOf "<span class=\"emoji\">" ++ fragments ++ markupOf "</span>"
  else if truthy textPart.nick then
    markupOf "<span role=\"button\" class=\"user " ++ markupOf "\" data-name=\""
      ++ markupOf "\">" ++ fragments ++ markupOf "</span>"
  else fragments

/-- The delimiters that the fixed templates contribute for a list of text parts. -/
def templateMarkup (textParts : List TextPart) : List Char :=
  (textParts.map partTemplateMarkup).flatten

/-- Two fragments with the same style information, whatever their text. -/
def sameStyle (f g : Fragment) : Prop :=
  f.bold = g.bold ∧ f.textColor = g.textColor ∧ f.bgColor = g.bgColor ∧
  f.italic = g.italic ∧ f.underline = g.underline ∧ f.strikethrough = g.strikethrough ∧
  f.monospace = g.monospace ∧ f.hexColor = g.hexColor ∧ f.hexBgColor = g.hexBgColor

/-- Two optional values that pass the same truthiness test and have the same escaped
form. -/
def escapedAlikeValue (escapeExpression : String → String) (v w : Option String) : Prop :=
  truthy v = truthy w ∧ escapeExpression (strOf v) = escapeExpression (strOf w)

/-- Two text parts that differ at most in fragment texts and in link, channel and nick
values that the escape function sends to the same strings. -/
def escapedAlike (escapeExpression : String → String) (p q : TextPart) : Prop :=
  escapedAlikeValue escapeExpression p.link q.link ∧
  escapedAlikeValue escapeExpression p.channel q.channel ∧
  truthy p.emoji = truthy q.emoji ∧
  escapedAlikeValue escapeExpression p.nick q.nick ∧
  List.Forall₂ (fun f g => sameStyle f g ∧ escapeExpression f.text = escapeExpression g.text)
    p.fragments q.fragments

/-- The replacement of one character by the `escapeExpression` of the Handlebars
library: the characters `&`, `<`, `>`, the double quote, the single quote, the grave
accent and `=` become entities. -/
def escapeChar (c : Char) : List Char :=
  if c = '&' then "&amp;".data
  else if c = '<' then "&lt;".data
  else if c = '>' then "&gt;".data
  else if c = Char.ofNat 34 then "&quot;".data
  else if c = Char.ofNat 39 then "&#x27;".data
  else if c = Char.ofNat 96 then "&#x60;".data
  else if c = '=' then "&#x3D;".data
  else [c]

/-- A sample escape function, with the replacement table of Handlebars. -/
def escapeSample (s : String) : String := ⟨(s.data.map escapeChar).flatten⟩

/-- A sample colour class function. -/
def colorSample (_ : String) : String := "color-1"

/-! ## Facts about the comparator and the sort -/

theorem partLE_iff (a b : Part) :
    partLE a b ↔ a.start < b.start ∨ (a.start = b.start ∧ b.end_ ≤ a.end_) := by
  unfold partLE compareParts
  split_ifs with h <;> constructor <;> intro h' <;> omega

theorem sortParts_sorted (l : List Part) : (sortParts l).Pairwise partLE :=
  List.sorted_insertionSort partLE l

theorem sortParts_perm (l : List Part) : (sortParts l).Perm l :=
  List.perm_insertionSort partLE l

theorem mem_sortParts {l : List Part} {a : Part} : a ∈ sortParts l ↔ a ∈ l :=
  (sortParts_perm l).mem_iff

theorem anyIntersection_comm (a b : Part) : anyIntersection a b = anyIntersection b a := by
  unfold anyIntersection
  rw [max_comm, min_comm]

/-! ## Facts about the reduce walk -/

/-- The walk from `acc` over `l`: what `reduce` computes from an accumulator. -/
theorem walk_cons (acc : List Part) (c : Part) (l : List Part) :
    (c :: l).foldl resolveStep acc = l.foldl resolveStep (resolveStep acc c) := rfl

theorem resolveStep_eq (acc : List Part) (c : Part) :
    resolveStep acc c = acc ∨ resolveStep acc c = acc ++ [c] := by
  unfold resolveStep
  split_ifs
  · exact Or.inl rfl
  · exact Or.inr rfl

theorem resolveStep_pos {acc : List Part} {c : Part}
    (h : acc.any (fun p => anyIntersection p c) = true) : resolveStep acc c = acc :=
  if_pos h

theorem resolveStep_neg {acc : List Part} {c : Part}
    (h : ¬ acc.any (fun p => anyIntersection p c) = true) : resolveStep acc c = acc ++ [c] :=
  if_neg h

theorem walk_extends (l : List Part) : ∀ acc : List Part,
    ∃ k, l.foldl resolveStep acc = acc ++ k ∧ k.Sublist l := by
  induction l with
  | nil => intro acc; exact ⟨[], by simp, List.Sublist.refl _⟩
  | cons c l ih =>
    intro acc
    obtain ⟨k, hk, hsub⟩ := ih (resolveStep acc c)
    rcases resolveStep_eq acc c with h | h
    · exact ⟨k, by rw [walk_cons, hk, h], hsub.cons c⟩
    · exact ⟨c :: k, by rw [walk_cons, hk, h]; simp, hsub.cons₂ c⟩

theorem resolve_sublist (cands : List Part) : (resolve cands).Sublist (sortParts cands) := by
  obtain ⟨k, hk, hsub⟩ := walk_extends (sortParts cands) []
  unfold resolve
  rw [hk]
  simpa using hsub

theorem mem_of_mem_resolve {cands : List Part} {a : Part} (h : a ∈ resolve cands) :
    a ∈ cands :=
  mem_sortParts.1 ((resolve_sublist cands).subset h)

theorem walk_pairwise (l : List Part) : ∀ acc : List Part,
    acc.Pairwise (fun p q => anyIntersection p q = false) →
    (l.foldl resolveStep acc).Pairwise (fun p q => anyIntersection p q = false) := by
  induction l with
  | nil => intro acc h; exact h
  | cons c l ih =>
    intro acc h
    rw [walk_cons]
    apply ih
    unfold resolveStep
    split_ifs with hc
    · exact h
    · rw [List.pairwise_append]
      refine ⟨h, List.pairwise_singleton _ _, ?_⟩
      intro p hp q hq
      rw [List.mem_singleton] at hq
      subst hq
      simp only [List.any_eq_true, not_exists, not_and, Bool.not_eq_true] at hc
      exact hc p hp

theorem resolve_pairwise (cands : List Part) :
    (resolve cands).Pairwise (fun p q => anyIntersection p q = false) :=
  walk_pairwise _ [] List.Pairwise.nil

theorem walk_maximal (l : List Part) : ∀ acc : List Part, ∀ c ∈ l,
    c ∉ l.foldl resolveStep acc →
    ∃ p ∈ l.foldl resolveStep acc, anyIntersection p c = true := by
  induction l with
  | nil => intro acc c hc; simp at hc
  | cons d l ih =>
    intro acc c hc hnot
    rw [walk_cons] at hnot ⊢
    obtain ⟨k, hk, -⟩ := walk_extends l (resolveStep acc d)
    rcases List.mem_cons.1 hc with rfl | hc'
    · by_cases hany : acc.any (fun p => anyIntersection p c) = true
      · obtain ⟨p, hp, hpc⟩ := List.any_eq_true.1 hany
        refine ⟨p, ?_, hpc⟩
        rw [hk]
        rw [resolveStep_pos hany]
        exact List.mem_append_left _ hp
      · exfalso
        apply hnot
        rw [hk]
        rw [resolveStep_neg hany]
        simp
    · exact ih _ c hc' hnot

theorem walk_subset_acc (l : List Part) (acc : List Part) {p : Part} (hp : p ∈ acc) :
    p ∈ l.foldl resolveStep acc := by
  obtain ⟨k, hk, -⟩ := walk_extends l acc
  rw [hk]
  exact List.mem_append_left _ hp

theorem walk_mem (l : List Part) (acc : List Part) {p : Part}
    (hp : p ∈ l.foldl resolveStep acc) : p ∈ acc ∨ p ∈ l := by
  obtain ⟨k, hk, hsub⟩ := walk_extends l acc
  rw [hk] at hp
  rcases List.mem_append.1 hp with h | h
  · exact Or.inl h
  · exact Or.inr (hsub.subset h)

/-- A candidate that a kept part intersects stays out for the rest of the walk. -/
theorem walk_blocked (l : List Part) : ∀ acc : List Part, ∀ b : Part,
    (∃ p ∈ acc, anyIntersection p b = true) → b ∉ acc → b ∉ l.foldl resolveStep acc := by
  induction l with
  | nil => intro acc b _ hb; exact hb
  | cons c l ih =>
    intro acc b hblk hb
    rw [walk_cons]
    obtain ⟨p, hp, hpb⟩ := hblk
    by_cases hcb : c = b
    · subst hcb
      have hany : acc.any (fun q => anyIntersection q c) = true :=
        List.any_eq_true.2 ⟨p, hp, hpb⟩
      rw [resolveStep_pos hany]
      exact ih acc c ⟨p, hp, hpb⟩ hb
    · apply ih
      · refine ⟨p, ?_, hpb⟩
        rcases resolveStep_eq acc c with h | h <;> rw [h]
        · exact hp
        · exact List.mem_append_left _ hp
      · rcases resolveStep_eq acc c with h | h <;> rw [h]
        · exact hb
        · intro hmem
          rcases List.mem_append.1 hmem with h' | h'
          · exact hb h'
          · exact hcb (List.mem_singleton.1 h').symm

/-- At the first occurrence of a candidate in the walked list, the candidate ends up in
the result exactly when no part kept so far intersects it. -/
theorem walk_first_occurrence (l₁ l₂ : List Part) (a : Part) (ha : a ∉ l₁) :
    a ∈ (l₁ ++ a :: l₂).foldl resolveStep [] ↔
      ∀ p ∈ l₁.foldl resolveStep [], anyIntersection p a = false := by
  rw [List.foldl_append, walk_cons]
  have hnot : a ∉ l₁.foldl resolveStep [] := by
    intro h
    rcases walk_mem l₁ [] h with h' | h'
    · simp at h'
    · exact ha h'
  constructor
  · intro hmem p hp
    by_contra hpa
    rw [Bool.not_eq_false] at hpa
    have hany : (l₁.foldl resolveStep []).any (fun q => anyIntersection q a) = true :=
      List.any_eq_true.2 ⟨p, hp, hpa⟩
    rw [resolveStep_pos hany] at hmem
    exact walk_blocked l₂ _ a ⟨p, hp, hpa⟩ hnot hmem
  · intro hfree
    have hany : ¬ (l₁.foldl resolveStep []).any (fun q => anyIntersection q a) = true := by
      intro h
      obtain ⟨p, hp, hpa⟩ := List.any_eq_true.1 h
      rw [hfree p hp] at hpa
      exact Bool.noConfusion hpa
    rw [resolveStep_neg hany]
    exact walk_subset_acc l₂ _ (by simp)

/-- When some `a` is walked before every `b`, and every part that intersects `a` from
an earlier position also intersects `b`, then `b` is never kept. -/
theorem walk_loser (x y : List Part) (a b : Part) (hab : a ≠ b) (hbx : b ∉ x)
    (hov : anyIntersection a b = true)
    (hcarry : ∀ p ∈ x, anyIntersection p a = true → anyIntersection p b = true) :
    b ∉ (x ++ a :: y).foldl resolveStep [] := by
  rw [List.foldl_append, walk_cons]
  have hnot : b ∉ x.foldl resolveStep [] := by
    intro h
    rcases walk_mem x [] h with h' | h'
    · simp at h'
    · exact hbx h'
  apply walk_blocked
  · by_cases hany : (x.foldl resolveStep []).any (fun q => anyIntersection q a) = true
    · obtain ⟨p, hp, hpa⟩ := List.any_eq_true.1 hany
      rw [resolveStep_pos hany]
      have hpx : p ∈ x := by
        rcases walk_mem x [] hp with h' | h'
        · simp at h'
        · exact h'
      exact ⟨p, hp, hcarry p hpx hpa⟩
    · rw [resolveStep_neg hany]
      exact ⟨a, by simp, hov⟩
  · rcases resolveStep_eq (x.foldl resolveStep []) a with h | h <;> rw [h]
    · exact hnot
    · intro hmem
      rcases List.mem_append.1 hmem with h' | h'
      · exact hnot h'
      · exact hab (List.mem_singleton.1 h').symm

/-! ## Stability of the sort -/

theorem before_orderedInsert (a b c : Part) (hcb : c ≠ b) :
    ∀ x y : List Part, b ∉ x → Before a b (List.orderedInsert partLE c (x ++ a :: y)) := by
  intro x
  induction x with
  | nil =>
    intro y _
    show Before a b (if partLE c a then c :: a :: y else a :: List.orderedInsert partLE c y)
    split_ifs
    · exact ⟨[c], y, rfl, by simpa using Ne.symm hcb⟩
    · exact ⟨[], _, rfl, by simp⟩
  | cons d x ih =>
    intro y hb
    show Before a b (if partLE c d then c :: d :: (x ++ a :: y)
      else d :: List.orderedInsert partLE c (x ++ a :: y))
    have hdb : b ≠ d := fun h => hb (by simp [h])
    have hbx : b ∉ x := fun h => hb (List.mem_cons_of_mem _ h)
    split_ifs
    · refine ⟨c :: d :: x, y, rfl, ?_⟩
      simp only [List.mem_cons, not_or]
      exact ⟨Ne.symm hcb, hdb, hbx⟩
    · obtain ⟨x', y', he, hb'⟩ := ih y hbx
      refine ⟨d :: x', y', by rw [he]; rfl, ?_⟩
      simp only [List.mem_cons, not_or]
      exact ⟨hdb, hb'⟩

/-- The sort is stable: of two parts that compare equal, or in order, the one standing
first in the input stands first in the output. -/
theorem before_sortParts (a b : Part) (hab : a ≠ b) (hle : partLE a b) :
    ∀ l : List Part, Before a b l → Before a b (sortParts l) := by
  intro l
  induction l with
  | nil =>
    rintro ⟨x, y, h, -⟩
    exact absurd h (by simp)
  | cons c l ih =>
    rintro ⟨x, y, h, hb⟩
    show Before a b (List.orderedInsert partLE c (List.insertionSort partLE l))
    cases x with
    | nil =>
      simp only [List.nil_append, List.cons.injEq] at h
      obtain ⟨rfl, -⟩ := h
      rw [List.orderedInsert_eq_take_drop]
      refine ⟨_, _, rfl, ?_⟩
      intro hmem
      have := List.mem_takeWhile_imp hmem
      simp only [decide_not, Bool.not_eq_true', decide_eq_false_iff_not] at this
      exact this hle
    | cons d x =>
      simp only [List.cons_append, List.cons.injEq] at h
      obtain ⟨rfl, rfl⟩ := h
      have hcb : c ≠ b := fun h' => hb (by simp [h'])
      have hbx : b ∉ x := fun h' => hb (List.mem_cons_of_mem _ h')
      obtain ⟨x', y', he, hb'⟩ := ih ⟨x, y, rfl, hbx⟩
      have he' : List.insertionSort partLE (x ++ a :: y) = x' ++ a :: y' := he
      rw [he']
      exact before_orderedInsert a b c hcb x' y' hb'

/-- In a sorted list, a part that must come strictly first has no later part before it. -/
theorem before_of_sorted (a b : Part) (l : List Part) (hs : l.Pairwise partLE)
    (ha : a ∈ l) (hlt : ¬ partLE b a) : Before a b l := by
  obtain ⟨x, y, he, -⟩ := List.eq_append_cons_of_mem ha
  refine ⟨x, y, he, ?_⟩
  intro hb
  rw [he, List.pairwise_append] at hs
  exact hlt (hs.2.2 b hb a (by simp))

/-- In the concatenation of the finder outputs, a part of an earlier finder stands before
every part of a later finder. -/
theorem before_of_rank (a b : Part) (l : List Part)
    (hs : l.Pairwise (fun p q => p.entity.rank ≤ q.entity.rank))
    (ha : a ∈ l) (hlt : a.entity.rank < b.entity.rank) : Before a b l := by
  obtain ⟨x, y, he, -⟩ := List.eq_append_cons_of_mem ha
  refine ⟨x, y, he, ?_⟩
  intro hb
  rw [he, List.pairwise_append] at hs
  have := hs.2.2 b hb a (by simp)
  omega

theorem concat_rank_sorted (channelParts linkParts emojiParts nameParts : List Part)
    (hc : ∀ p ∈ channelParts, p.entity.rank = 0) (hl : ∀ p ∈ linkParts, p.entity.rank = 1)
    (he : ∀ p ∈ emojiParts, p.entity.rank = 2) (hn : ∀ p ∈ nameParts, p.entity.rank = 3) :
    (channelParts ++ linkParts ++ emojiParts ++ nameParts).Pairwise
      (fun p q => p.entity.rank ≤ q.entity.rank) := by
  have same : ∀ (l : List Part) (n : Nat), (∀ p ∈ l, p.entity.rank = n) →
      l.Pairwise (fun p q => p.entity.rank ≤ q.entity.rank) := by
    intro l n h
    rw [List.pairwise_iff_forall_sublist]
    intro p q hsub
    have hp := h p (hsub.subset (by simp))
    have hq := h q (hsub.subset (by simp))
    omega
  simp only [List.pairwise_append, List.mem_append]
  refine ⟨⟨⟨same _ 0 hc, same _ 1 hl, ?_⟩, same _ 2 he, ?_⟩, same _ 3 hn, ?_⟩
  · intro p hp q hq
    have := hc p hp; have := hl q hq; omega
  · rintro p (hp | hp) q hq
    · have := hc p hp; have := he q hq; omega
    · have := hl p hp; have := he q hq; omega
  · rintro p ((hp | hp) | hp) q hq
    · have := hc p hp; have := hn q hq; omega
    · have := hl p hp; have := hn q hq; omega
    · have := he p hp; have := hn q hq; omega

/-! ## The resolver: ordering, priority, maximality -/

theorem resolve_eq_of_sort_eq {l₁ l₂ : List Part} (h : sortParts l₁ = sortParts l₂) :
    resolve l₁ = resolve l₂ := by
  unfold resolve
  rw [h]

theorem resolve_not_both {cands : List Part} {a b : Part} (hab : a ≠ b)
    (hov : anyIntersection a b = true) (ha : a ∈ resolve cands) : b ∉ resolve cands := by
  intro hb
  have hsym : Symmetric (fun p q : Part => anyIntersection p q = false) := by
    intro p q h
    rw [anyIntersection_comm]
    exact h
  have := (resolve_pairwise cands).forall hsym ha hb hab
  rw [hov] at this
  exact Bool.noConfusion this

/-- C1: when every candidate has start < end, the sorted and reduced list is ordered and
disjoint: each kept range ends at or before the start of the next one, the starts
ascend, and no two kept ranges share an offset. -/
theorem resolve_ordered_disjoint (cands : List Part)
    (h : ∀ c ∈ cands, c.start < c.end_) :
    (resolve cands).Chain' (fun a b => a.end_ ≤ b.start) ∧
    (resolve cands).Pairwise (fun a b => a.start ≤ b.start) ∧
    (resolve cands).Pairwise (fun a b =>
      ¬ ∃ k : Int, a.start ≤ k ∧ k < a.end_ ∧ b.start ≤ k ∧ k < b.end_) := by
  have hsorted : (resolve cands).Pairwise partLE :=
    (sortParts_sorted cands).sublist (resolve_sublist cands)
  have hkey : (resolve cands).Pairwise (fun a b => a.end_ ≤ b.start) := by
    have hboth := hsorted.and (resolve_pairwise cands)
    refine hboth.imp_of_mem ?_
    intro a b ha hb hab
    obtain ⟨hle, hno⟩ := hab
    have ha' := h a (mem_of_mem_resolve ha)
    have hb' := h b (mem_of_mem_resolve hb)
    rw [partLE_iff] at hle
    unfold anyIntersection at hno
    rw [decide_eq_false_iff_not] at hno
    omega
  refine ⟨hkey.chain', ?_, ?_⟩
  · refine hsorted.imp ?_
    intro a b hle
    rw [partLE_iff] at hle
    omega
  · refine hkey.imp ?_
    rintro a b hle ⟨k, h1, h2, h3, h4⟩
    omega

theorem resolve_ordered_disjoint_witness :
    (∀ c ∈ [(⟨3, 8, .link "b"⟩ : Part), ⟨0, 5, .channel "a"⟩, ⟨6, 10, .nick "c"⟩],
      c.start < c.end_) ∧
    (resolve [⟨3, 8, .link "b"⟩, ⟨0, 5, .channel "a"⟩, ⟨6, 10, .nick "c"⟩]).Chain'
      (fun a b => a.end_ ≤ b.start) :=
  ⟨by decide,
    (resolve_ordered_disjoint
      [⟨3, 8, .link "b"⟩, ⟨0, 5, .channel "a"⟩, ⟨6, 10, .nick "c"⟩] (by decide)).1⟩

/-- C10: the walk is greedy and maximal. At each position of the sorted candidates the
output continues with the candidate exactly when no part kept before it intersects it;
every candidate absent from the output intersects a part of the output; and the first
candidate of the sorted order is in the output. -/
theorem resolve_greedy_maximal (cands : List Part) :
    (∀ l₁ c l₂, sortParts cands = l₁ ++ c :: l₂ →
      ∃ rest, rest.Sublist l₂ ∧
        resolve cands = l₁.foldl resolveStep [] ++
          (if (l₁.foldl resolveStep []).any (fun p => anyIntersection p c) then []
            else [c]) ++ rest) ∧
    (∀ c ∈ cands, c ∉ resolve cands → ∃ p ∈ resolve cands, anyIntersection p c = true) ∧
    (∀ c l₂, sortParts cands = c :: l₂ → c ∈ resolve cands) := by
  refine ⟨?_, ?_, ?_⟩
  · intro l₁ c l₂ hs
    obtain ⟨k, hk, hsub⟩ := walk_extends l₂ (resolveStep (l₁.foldl resolveStep []) c)
    refine ⟨k, hsub, ?_⟩
    unfold resolve
    rw [hs, List.foldl_append, walk_cons, hk]
    by_cases hany : (l₁.foldl resolveStep []).any (fun p => anyIntersection p c) = true
    · rw [resolveStep_pos hany, if_pos hany, List.append_nil]
    · rw [resolveStep_neg hany, if_neg hany]
  · intro c hc hnot
    exact walk_maximal (sortParts cands) [] c (mem_sortParts.2 hc) hnot
  · intro c l₂ hs
    unfold resolve
    rw [hs, walk_cons]
    exact walk_subset_acc l₂ _ (by simp [resolveStep])

theorem resolve_greedy_maximal_witness :
    (⟨3, 8, .link "b"⟩ : Part) ∈
        [(⟨3, 8, .link "b"⟩ : Part), ⟨0, 5, .channel "a"⟩, ⟨6, 10, .nick "c"⟩] ∧
    (⟨3, 8, .link "b"⟩ : Part) ∉
        resolve [⟨3, 8, .link "b"⟩, ⟨0, 5, .channel "a"⟩, ⟨6, 10, .nick "c"⟩] ∧
    ∃ p ∈ resolve [⟨3, 8, .link "b"⟩, ⟨0, 5, .channel "a"⟩, ⟨6, 10, .nick "c"⟩],
      anyIntersection p ⟨3, 8, .link "b"⟩ = true :=
  ⟨by decide, by decide,
    (resolve_greedy_maximal
      [⟨3, 8, .link "b"⟩, ⟨0, 5, .channel "a"⟩, ⟨6, 10, .nick "c"⟩]).2.1
      ⟨3, 8, .link "b"⟩ (by decide) (by decide)⟩

/-- C6, as stated, fails: a lone candidate with start = end is kept. -/
theorem resolve_keeps_zero_length :
    resolve [⟨5, 5, .link "x"⟩] = [⟨5, 5, .link "x"⟩] ∧
      (⟨5, 5, .link "x"⟩ : Part).start = (⟨5, 5, .link "x"⟩ : Part).end_ := by
  decide

/-- C6, amended: the resolver keeps only candidates and has no length check of its own.
When no candidate has start = end, no output range has; and a lone candidate is kept
whatever its length. -/
theorem resolve_no_length_check (cands : List Part) (c : Part) :
    ((∀ d ∈ cands, d.start ≠ d.end_) → ∀ p ∈ resolve cands, p.start ≠ p.end_) ∧
    resolve [c] = [c] := by
  constructor
  · intro h p hp
    exact h p (mem_of_mem_resolve hp)
  · simp [resolve, sortParts, resolveStep]

theorem resolve_no_length_check_witness :
    (∀ d ∈ [(⟨0, 5, .channel "a"⟩ : Part), ⟨6, 10, .nick "c"⟩], d.start ≠ d.end_) ∧
    ∀ p ∈ resolve [⟨0, 5, .channel "a"⟩, ⟨6, 10, .nick "c"⟩], p.start ≠ p.end_ :=
  ⟨by decide,
    (resolve_no_length_check [⟨0, 5, .channel "a"⟩, ⟨6, 10, .nick "c"⟩]
      ⟨0, 5, .channel "a"⟩).1 (by decide)⟩

/-- C5: the result does not depend on the order of the candidates. For two candidate
lists that are permutations of each other, with no two candidates of the same start and
the same end, sort and reduce return the same list. -/
theorem resolve_perm_invariant (l₁ l₂ : List Part) (hp : l₁.Perm l₂)
    (hd : l₁.Pairwise (fun a b => ¬ (a.start = b.start ∧ a.end_ = b.end_))) :
    resolve l₁ = resolve l₂ := by
  apply resolve_eq_of_sort_eq
  have hsym : Symmetric (fun a b : Part => ¬ (a.start = b.start ∧ a.end_ = b.end_)) := by
    intro a b h h'
    exact h ⟨h'.1.symm, h'.2.symm⟩
  have hkey : ∀ a ∈ l₁, ∀ b ∈ l₁, a.start = b.start → a.end_ = b.end_ → a = b := by
    intro a ha b hb hs he
    by_contra hne
    exact hd.forall hsym ha hb hne ⟨hs, he⟩
  let r : Part → Part → Prop := fun a b => partLE a b ∧ (partLE b a → a = b)
  haveI : IsAntisymm Part r := ⟨fun a b hab hba => hab.2 hba.1⟩
  have hstrict : ∀ l : List Part, l.Perm l₁ → l.Pairwise partLE → l.Pairwise r := by
    intro l hl hs
    refine hs.imp_of_mem ?_
    intro a b ha hb hle
    refine ⟨hle, fun hle' => ?_⟩
    rw [partLE_iff] at hle hle'
    exact hkey a (hl.mem_iff.1 ha) b (hl.mem_iff.1 hb) (by omega) (by omega)
  have h1 := hstrict (sortParts l₁) (sortParts_perm l₁) (sortParts_sorted l₁)
  have h2 := hstrict (sortParts l₂) ((sortParts_perm l₂).trans hp.symm) (sortParts_sorted l₂)
  exact List.eq_of_perm_of_sorted
    ((sortParts_perm l₁).trans (hp.trans (sortParts_perm l₂).symm)) h1 h2

theorem resolve_perm_invariant_witness :
    resolve [(⟨3, 8, .link "b"⟩ : Part), ⟨0, 5, .channel "a"⟩, ⟨6, 10, .nick "c"⟩] =
      resolve [⟨6, 10, .nick "c"⟩, ⟨3, 8, .link "b"⟩, ⟨0, 5, .channel "a"⟩] :=
  resolve_perm_invariant _ _ (by decide) (by decide)

/-- A candidate is dropped when a candidate that intersects it and has the same start is
walked before it. -/
theorem resolve_loser (cands : List Part) (a b : Part) (hab : a ≠ b)
    (hbef : Before a b (sortParts cands)) (hov : anyIntersection a b = true)
    (hs : a.start = b.start) : b ∉ resolve cands := by
  obtain ⟨x, y, he, hbx⟩ := hbef
  unfold resolve
  rw [he]
  refine walk_loser x y a b hab hbx hov ?_
  intro p hp hpa
  have hsorted := sortParts_sorted cands
  rw [he, List.pairwise_append] at hsorted
  have hle := hsorted.2.2 p hp a (by simp)
  rw [partLE_iff] at hle
  unfold anyIntersection at hpa hov ⊢
  rw [decide_eq_true_iff] at hpa hov ⊢
  omega

/-- A candidate is kept when every part kept before its first walk intersects it not. -/
theorem resolve_winner (cands : List Part) (a : Part) (ha : a ∈ cands)
    (hfree : ∀ p ∈ resolve cands, p ≠ a → partLE p a → anyIntersection p a = false) :
    a ∈ resolve cands := by
  obtain ⟨x, y, he, hax⟩ := List.eq_append_cons_of_mem (mem_sortParts.2 ha)
  have hiff := walk_first_occurrence x y a hax
  rw [← he] at hiff
  refine hiff.2 ?_
  intro p hp
  have hpx : p ∈ x := by
    rcases walk_mem x [] hp with h' | h'
    · simp at h'
    · exact h'
  have hsorted := sortParts_sorted cands
  rw [he, List.pairwise_append] at hsorted
  have hle := hsorted.2.2 p hpx a (by simp)
  have hne : p ≠ a := fun h => hax (h ▸ hpx)
  have hpout : p ∈ resolve cands := by
    unfold resolve
    rw [he, List.foldl_append]
    exact walk_subset_acc _ _ hp
  exact hfree p hpout hne hle

/-- C3, as stated, fails: of two overlapping candidates with different starts, the one
that starts earlier is dropped (a still earlier candidate intersects it) and the one that
starts later is kept. -/
theorem earlier_start_can_lose :
    resolve [⟨0, 5, .channel "a"⟩, ⟨3, 8, .link "b"⟩, ⟨6, 10, .nick "c"⟩]
        = [⟨0, 5, .channel "a"⟩, ⟨6, 10, .nick "c"⟩] ∧
      anyIntersection ⟨3, 8, .link "b"⟩ ⟨6, 10, .nick "c"⟩ = true ∧
      (⟨3, 8, .link "b"⟩ : Part).start < (⟨6, 10, .nick "c"⟩ : Part).start := by
  decide

/-- C3, amended: two overlapping candidates with different starts are never both in the
output. When the earlier-starting one is in the output the later-starting one is not;
and the earlier-starting one is in the output, and the other is not, when no other
candidate that starts at or before it intersects it. -/
theorem earlier_start_wins (cands : List Part) (a b : Part) (ha : a ∈ cands)
    (_hb : b ∈ cands) (hov : anyIntersection a b = true) (hlt : a.start < b.start) :
    (a ∈ resolve cands → b ∉ resolve cands) ∧
    ((∀ c ∈ cands, c ≠ a → c.start ≤ a.start → anyIntersection c a = false) →
      a ∈ resolve cands ∧ b ∉ resolve cands) := by
  have hab : a ≠ b := by
    intro h
    rw [h] at hlt
    omega
  have hfirst : a ∈ resolve cands → b ∉ resolve cands := resolve_not_both hab hov
  refine ⟨hfirst, fun hfree => ?_⟩
  have hin : a ∈ resolve cands := by
    apply resolve_winner cands a ha
    intro p hp hne hle
    rw [partLE_iff] at hle
    exact hfree p (mem_of_mem_resolve hp) hne (by omega)
  exact ⟨hin, hfirst hin⟩

theorem earlier_start_wins_witness :
    (⟨0, 5, .channel "a"⟩ : Part) ∈
      resolve [⟨0, 5, .channel "a"⟩, ⟨3, 8, .link "b"⟩, ⟨6, 10, .nick "c"⟩] ∧
    (⟨3, 8, .link "b"⟩ : Part) ∉
      resolve [⟨0, 5, .channel "a"⟩, ⟨3, 8, .link "b"⟩, ⟨6, 10, .nick "c"⟩] :=
  (earlier_start_wins [⟨0, 5, .channel "a"⟩, ⟨3, 8, .link "b"⟩, ⟨6, 10, .nick "c"⟩]
    ⟨0, 5, .channel "a"⟩ ⟨3, 8, .link "b"⟩ (by decide) (by decide) (by decide)
    (by decide)).2 (by decide)

/-- C2, as stated, fails: a channel candidate and a longer name candidate overlap at the
same start, and the name candidate, from the later finder, is the one kept. -/
theorem earlier_finder_can_lose :
    parts [⟨0, 3, .channel "#ab"⟩] [] [] [⟨0, 5, .nick "#abcd"⟩]
      = [⟨0, 5, .nick "#abcd"⟩] := by
  decide

/-- C2, amended: of two overlapping candidates of different finders with the same start,
the one with the larger end, or at equal ends the one of the earlier-concatenated finder,
is the only one that can be kept. The other is never in the output, and the first is in
the output when no third candidate that the comparator lets stand before it intersects
it. -/
theorem same_start_longer_then_finder_order
    (channelParts linkParts emojiParts nameParts : List Part)
    (hc : ∀ p ∈ channelParts, p.entity.rank = 0) (hl : ∀ p ∈ linkParts, p.entity.rank = 1)
    (he : ∀ p ∈ emojiParts, p.entity.rank = 2) (hn : ∀ p ∈ nameParts, p.entity.rank = 3)
    (a b : Part)
    (ha : a ∈ channelParts ++ linkParts ++ emojiParts ++ nameParts)
    (_hb : b ∈ channelParts ++ linkParts ++ emojiParts ++ nameParts)
    (hr : a.entity.rank ≠ b.entity.rank) (hov : anyIntersection a b = true)
    (hs : a.start = b.start)
    (hwin : b.end_ < a.end_ ∨ (a.end_ = b.end_ ∧ a.entity.rank < b.entity.rank)) :
    b ∉ parts channelParts linkParts emojiParts nameParts ∧
    ((∀ c ∈ channelParts ++ linkParts ++ emojiParts ++ nameParts,
        c ≠ a → c ≠ b → partLE c a → anyIntersection c a = false) →
      a ∈ parts channelParts linkParts emojiParts nameParts) := by
  have hab : a ≠ b := fun h => hr (by rw [h])
  have hbef : Before a b (sortParts (channelParts ++ linkParts ++ emojiParts ++ nameParts)) := by
    rcases hwin with hlong | ⟨hsame, hrank⟩
    · apply before_of_sorted a b _ (sortParts_sorted _) (mem_sortParts.2 ha)
      rw [partLE_iff]
      omega
    · apply before_sortParts a b hab
      · rw [partLE_iff]
        omega
      · exact before_of_rank a b _
          (concat_rank_sorted channelParts linkParts emojiParts nameParts hc hl he hn) ha hrank
  have hout : b ∉ parts channelParts linkParts emojiParts nameParts :=
    resolve_loser _ a b hab hbef hov hs
  refine ⟨hout, fun hfree => ?_⟩
  apply resolve_winner _ a ha
  intro p hp hne hle
  have hpb : p ≠ b := fun h => hout (h ▸ hp)
  exact hfree p (mem_of_mem_resolve hp) hne hpb hle

theorem same_start_longer_then_finder_order_witness :
    (⟨0, 3, .channel "#ab"⟩ : Part) ∉
      parts [⟨0, 3, .channel "#ab"⟩] [] [] [⟨0, 5, .nick "#abcd"⟩] ∧
    (⟨0, 5, .nick "#abcd"⟩ : Part) ∈
      parts [⟨0, 3, .channel "#ab"⟩] [] [] [⟨0, 5, .nick "#abcd"⟩] :=
  have h := same_start_longer_then_finder_order
    [⟨0, 3, .channel "#ab"⟩] [] [] [⟨0, 5, .nick "#abcd"⟩]
    (by decide) (by decide) (by decide) (by decide)
    ⟨0, 5, .nick "#abcd"⟩ ⟨0, 3, .channel "#ab"⟩
    (by decide) (by decide) (by decide) (by decide) (by decide) (by decide)
  ⟨h.1, h.2 (by decide)⟩

/-- C4: two candidates of different finders with the same start and the same end,
start < end. The one of the later-concatenated finder is never in the output. The one of
the earlier-concatenated finder is met by the walk: the sorted candidates split at its
first occurrence, and wherever they split so, it is in the output exactly when it
intersects no part kept before it. -/
theorem same_range_finder_order
    (channelParts linkParts emojiParts nameParts : List Part)
    (hc : ∀ p ∈ channelParts, p.entity.rank = 0) (hl : ∀ p ∈ linkParts, p.entity.rank = 1)
    (he : ∀ p ∈ emojiParts, p.entity.rank = 2) (hn : ∀ p ∈ nameParts, p.entity.rank = 3)
    (a b : Part)
    (ha : a ∈ channelParts ++ linkParts ++ emojiParts ++ nameParts)
    (_hb : b ∈ channelParts ++ linkParts ++ emojiParts ++ nameParts)
    (hs : a.start = b.start) (hend : a.end_ = b.end_) (hpos : a.start < a.end_)
    (hrank : a.entity.rank < b.entity.rank) :
    b ∉ parts channelParts linkParts emojiParts nameParts ∧
    (∃ l₁ l₂, sortParts (channelParts ++ linkParts ++ emojiParts ++ nameParts) = l₁ ++ a :: l₂ ∧
      a ∉ l₁ ∧ b ∉ l₁ ∧
      (a ∈ parts channelParts linkParts emojiParts nameParts ↔
        ∀ p ∈ l₁.foldl resolveStep [], anyIntersection p a = false)) ∧
    (∀ l₁ l₂, sortParts (channelParts ++ linkParts ++ emojiParts ++ nameParts) = l₁ ++ a :: l₂ →
      a ∉ l₁ →
      (a ∈ parts channelParts linkParts emojiParts nameParts ↔
        ∀ p ∈ l₁.foldl resolveStep [], anyIntersection p a = false)) := by
  have hab : a ≠ b := by
    intro h
    rw [h] at hrank
    omega
  have hov : anyIntersection a b = true := by
    unfold anyIntersection
    rw [decide_eq_true_iff]
    omega
  have hall : ∀ l₁ l₂,
      sortParts (channelParts ++ linkParts ++ emojiParts ++ nameParts) = l₁ ++ a :: l₂ →
      a ∉ l₁ →
      (a ∈ parts channelParts linkParts emojiParts nameParts ↔
        ∀ p ∈ l₁.foldl resolveStep [], anyIntersection p a = false) := by
    intro l₁ l₂ hsort hal
    have hiff := walk_first_occurrence l₁ l₂ a hal
    rw [← hsort] at hiff
    exact hiff
  have hout : b ∉ parts channelParts linkParts emojiParts nameParts := by
    apply resolve_loser _ a b hab _ hov hs
    apply before_sortParts a b hab
    · rw [partLE_iff]
      omega
    · exact before_of_rank a b _
        (concat_rank_sorted channelParts linkParts emojiParts nameParts hc hl he hn) ha hrank
  refine ⟨hout, ?_, hall⟩
  obtain ⟨l₁, l₂, hsort, hal⟩ := List.eq_append_cons_of_mem (mem_sortParts.2 ha)
  refine ⟨l₁, l₂, hsort, hal, ?_, hall l₁ l₂ hsort hal⟩
  intro hbl
  have hsorted := sortParts_sorted (channelParts ++ linkParts ++ emojiParts ++ nameParts)
  rw [hsort, List.pairwise_append] at hsorted
  have hba : partLE b a := hsorted.2.2 b hbl a (by simp)
  obtain ⟨x, y, hxy, hbx⟩ := before_sortParts a b hab (by rw [partLE_iff]; omega) _
    (before_of_rank a b _
      (concat_rank_sorted channelParts linkParts emojiParts nameParts hc hl he hn) ha hrank)
  rw [hsort] at hxy
  rcases List.append_eq_append_iff.1 hxy with ⟨t, hx, ht⟩ | ⟨t, hx, ht⟩
  · exact hbx (hx ▸ List.mem_append_left _ hbl)
  · cases t with
    | nil =>
      simp only [List.append_nil] at hx
      exact hbx (hx ▸ hbl)
    | cons d t =>
      simp only [List.cons_append, List.cons.injEq] at ht
      exact hal (by rw [hx, ← ht.1]; simp)

theorem same_range_finder_order_witness :
    (⟨0, 3, .nick "#ab"⟩ : Part) ∉
      parts [⟨0, 3, .channel "#ab"⟩] [] [] [⟨0, 3, .nick "#ab"⟩] ∧
    (⟨0, 3, .channel "#ab"⟩ : Part) ∈
      parts [⟨0, 3, .channel "#ab"⟩] [] [] [⟨0, 3, .nick "#ab"⟩] :=
  have h := same_range_finder_order
    [⟨0, 3, .channel "#ab"⟩] [] [] [⟨0, 3, .nick "#ab"⟩]
    (by decide) (by decide) (by decide) (by decide)
    ⟨0, 3, .channel "#ab"⟩ ⟨0, 3, .nick "#ab"⟩
    (by decide) (by decide) (by decide) (by decide) (by decide) (by decide)
  ⟨h.1, (h.2.2 [] [⟨0, 3, .nick "#ab"⟩] (by decide) (by decide)).2 (by decide)⟩

/-! ## Decimal rendering of colour numbers -/

theorem digitChar_inj :
    ∀ a, a < 10 → ∀ b, b < 10 → Nat.digitChar a = Nat.digitChar b → a = b := by
  decide

theorem map_digitChar_inj : ∀ l₁ l₂ : List Nat, (∀ d ∈ l₁, d < 10) → (∀ d ∈ l₂, d < 10) →
    l₁.map Nat.digitChar = l₂.map Nat.digitChar → l₁ = l₂ := by
  intro l₁
  induction l₁ with
  | nil =>
    intro l₂ _ _ h
    cases l₂ with
    | nil => rfl
    | cons e l₂ => simp at h
  | cons d l₁ ih =>
    intro l₂ h1 h2 h
    cases l₂ with
    | nil => simp at h
    | cons e l₂ =>
      simp only [List.map_cons, List.cons.injEq] at h
      have hde : d = e := digitChar_inj d (h1 d (by simp)) e (h2 e (by simp)) h.1
      have := ih l₂ (fun x hx => h1 x (List.mem_cons_of_mem _ hx))
        (fun x hx => h2 x (List.mem_cons_of_mem _ hx)) h.2
      rw [hde, this]

theorem toDigitsCore_eq (fuel : Nat) : ∀ (n : Nat) (acc : List Char), 0 < n → n < fuel →
    Nat.toDigitsCore 10 fuel n acc = ((Nat.digits 10 n).reverse.map Nat.digitChar) ++ acc := by
  induction fuel with
  | zero => intro n acc _ h; omega
  | succ fuel ih =>
    intro n acc hpos hlt
    rw [Nat.digits_def' (by norm_num) hpos]
    simp only [Nat.toDigitsCore]
    split_ifs with h0
    · have : n / 10 = 0 := h0
      rw [this]
      simp
    · have hn' : 0 < n / 10 := Nat.pos_of_ne_zero h0
      rw [ih (n / 10) _ hn' (by omega)]
      simp

theorem toDigits_pos (n : Nat) (hpos : 0 < n) :
    Nat.toDigits 10 n = (Nat.digits 10 n).reverse.map Nat.digitChar := by
  unfold Nat.toDigits
  rw [toDigitsCore_eq (n + 1) n [] hpos (by omega)]
  simp

theorem toDigits_zero : Nat.toDigits 10 0 = ['0'] := by decide

theorem toDigits_inj (n m : Nat) (h : Nat.toDigits 10 n = Nat.toDigits 10 m) : n = m := by
  have key : ∀ k, 0 < k → Nat.toDigits 10 k ≠ ['0'] := by
    intro k hk heq
    rw [toDigits_pos k hk] at heq
    have hlen := congrArg List.length heq
    simp only [List.length_map, List.length_reverse, List.length_singleton] at hlen
    obtain ⟨d, hd⟩ := List.length_eq_one.1 hlen
    rw [hd] at heq
    simp only [List.reverse_singleton, List.map_cons, List.map_nil, List.cons.injEq,
      and_true] at heq
    have hdlt : d < 10 := Nat.digits_lt_base (by norm_num) (by rw [hd]; simp)
    have hd0 : d = 0 := digitChar_inj d hdlt 0 (by norm_num) heq
    have hlast := Nat.getLast_digit_ne_zero 10 (Nat.pos_iff_ne_zero.1 hk)
    simp only [hd, List.getLast_singleton] at hlast
    exact hlast hd0
  rcases Nat.eq_zero_or_pos n with hn | hn <;> rcases Nat.eq_zero_or_pos m with hm | hm
  · rw [hn, hm]
  · rw [hn, toDigits_zero] at h
    exact absurd h.symm (key m hm)
  · rw [hm, toDigits_zero] at h
    exact absurd h (key n hn)
  · rw [toDigits_pos n hn, toDigits_pos m hm] at h
    have hrev : (Nat.digits 10 n).reverse = (Nat.digits 10 m).reverse := by
      apply map_digitChar_inj _ _ _ _ h
      · intro d hd
        exact Nat.digits_lt_base (by norm_num) (List.mem_reverse.1 hd)
      · intro d hd
        exact Nat.digits_lt_base (by norm_num) (List.mem_reverse.1 hd)
    exact Nat.digits_inj_iff.1 (List.reverse_injective hrev)

theorem toString_inj (n m : Nat) (h : (toString n : String) = toString m) : n = m := by
  apply toDigits_inj
  have := congrArg String.data h
  exact this

/-! ## Rendering -/

theorem markupOf_append (s t : String) : markupOf (s ++ t) = markupOf s ++ markupOf t := by
  simp [markupOf]

theorem markupOf_blank (s : String) : markupOf (blank s) = [] := rfl

theorem join_cons (s : String) (l : List String) : join (s :: l) = s ++ join l := rfl

theorem markupOf_escapeSample (s : String) : markupOf (escapeSample s) = [] := by
  have hchar : ∀ c : Char, (escapeChar c).filter isMarkup = [] := by
    intro c
    unfold escapeChar
    split_ifs with h1 h2 h3 h4 h5 h6 h7
    · decide
    · decide
    · decide
    · decide
    · decide
    · decide
    · decide
    · simp [isMarkup, h2, h3, h4]
  have hlist : ∀ l : List Char, ((l.map escapeChar).flatten).filter isMarkup = [] := by
    intro l
    induction l with
    | nil => rfl
    | cons c l ih => simp [List.filter_append, hchar c, ih]
  exact hlist s.data

theorem createFragment_markup (escapeExpression : String → String)
    (hesc : ∀ s, markupOf (escapeExpression s) = []) (f : Fragment) :
    markupOf (createFragment escapeExpression f) = markupOf (createFragment blank f) := by
  unfold createFragment
  split_ifs
  · simp [markupOf_append, hesc, markupOf_blank]
  · simp [hesc, markupOf_blank]

theorem fragments_markup (escapeExpression : String → String)
    (hesc : ∀ s, markupOf (escapeExpression s) = []) (fs : List Fragment) :
    markupOf (join (fs.map (createFragment escapeExpression)))
      = markupOf (join (fs.map (createFragment blank))) := by
  induction fs with
  | nil => rfl
  | cons f fs ih =>
    simp only [List.map_cons, join_cons, markupOf_append, ih,
      createFragment_markup escapeExpression hesc f]

theorem renderTextPart_markup (escapeExpression colorClass : String → String)
    (hesc : ∀ s, markupOf (escapeExpression s) = [])
    (hcc : ∀ s, markupOf (colorClass s) = []) (p : TextPart) :
    markupOf (renderTextPart escapeExpression colorClass p)
      = markupOf (renderTextPart blank blank p) := by
  unfold renderTextPart
  split_ifs <;>
    simp only [markupOf_append, hesc, hcc, markupOf_blank,
      fragments_markup escapeExpression hesc p.fragments]

theorem createFragment_alike (escapeExpression : String → String) (f g : Fragment)
    (hs : sameStyle f g) (ht : escapeExpression f.text = escapeExpression g.text) :
    createFragment escapeExpression f = createFragment escapeExpression g := by
  obtain ⟨h1, h2, h3, h4, h5, h6, h7, h8, h9⟩ := hs
  have hattr : attributes f = attributes g := by
    unfold attributes classAttribute styleAttribute classes
    rw [h1, h2, h3, h4, h5, h6, h7, h8, h9]
  unfold createFragment
  rw [hattr, ht]

theorem fragments_alike (escapeExpression : String → String) (fs gs : List Fragment)
    (h : List.Forall₂
      (fun f g => sameStyle f g ∧ escapeExpression f.text = escapeExpression g.text) fs gs) :
    fs.map (createFragment escapeExpression) = gs.map (createFragment escapeExpression) := by
  induction h with
  | nil => rfl
  | cons hfg _ ih =>
    simp only [List.map_cons, ih, createFragment_alike escapeExpression _ _ hfg.1 hfg.2]

/-- C7, as stated, fails: the hyperlink of a link part has `rel="noopener"`, and
`noreferrer` occurs nowhere in the markup. -/
theorem link_rel_lacks_noreferrer :
    renderTextPart escapeSample colorSample ⟨some "http://x.com", none, none, none, []⟩
      = "<a href=\"http://x.com\" target=\"_blank\" rel=\"noopener\"></a>" ∧
    ¬ ("noreferrer".data <:+:
      (renderTextPart escapeSample colorSample
        ⟨some "http://x.com", none, none, none, []⟩).data) := by
  decide

/-- C7, amended: the markup of a text part of link kind is a hyperlink that wraps the
rendered fragments, whose href is the escaped link, with `target="_blank"` and
`rel="noopener"`: it carries no-opener, not no-referrer. -/
theorem link_part_markup (escapeExpression colorClass : String → String) (p : TextPart)
    (h : truthy p.link = true) :
    renderTextPart escapeExpression colorClass p
      = "<a href=\"" ++ escapeExpression (strOf p.link)
          ++ "\" target=\"_blank\" rel=\"noopener\">"
          ++ join (p.fragments.map (createFragment escapeExpression)) ++ "</a>" := by
  unfold renderTextPart
  rw [if_pos h]

theorem link_part_markup_witness :
    renderTextPart escapeSample colorSample ⟨some "http://x.com", none, none, none, []⟩
      = "<a href=\"" ++ escapeSample (strOf (some "http://x.com"))
          ++ "\" target=\"_blank\" rel=\"noopener\">"
          ++ join (([] : List Fragment).map (createFragment escapeSample)) ++ "</a>" :=
  link_part_markup escapeSample colorSample
    ⟨some "http://x.com", none, none, none, []⟩ (by decide)

/-! ## Classes and inline style of a fragment -/

theorem prefix_cancel (pre s t : String) (h : pre ++ s = pre ++ t) : s = t := by
  have := congrArg String.data h
  simp only [String.data_append, List.append_cancel_left_eq] at this
  exact String.ext this

theorem mem_flag (c : String) (b : Bool) (s : String) :
    (c ∈ if b = true then [s] else []) ↔ (b = true ∧ c = s) := by
  cases b <;> simp

theorem mem_color (c : String) (o : Option Nat) (pre : String) :
    (c ∈ match o with
      | some n => [pre ++ toString n]
      | none => []) ↔ ∃ n, o = some n ∧ c = pre ++ toString n := by
  cases o <;> simp

theorem mem_classes (f : Fragment) (c : String) :
    c ∈ classes f ↔
      (f.bold = true ∧ c = "irc-bold") ∨
      (∃ n, f.textColor = some n ∧ c = "irc-fg" ++ toString n) ∨
      (∃ n, f.bgColor = some n ∧ c = "irc-bg" ++ toString n) ∨
      (f.italic = true ∧ c = "irc-italic") ∨
      (f.underline = true ∧ c = "irc-underline") ∨
      (f.strikethrough = true ∧ c = "irc-strikethrough") ∨
      (f.monospace = true ∧ c = "irc-monospace") := by
  unfold classes
  simp only [List.mem_append, mem_flag, mem_color, or_assoc]

theorem data_ne {s t : String} (h : s.data ≠ t.data) : s ≠ t :=
  fun he => h (congrArg String.data he)

theorem fg_ne (s : String) :
    "irc-fg" ++ s ≠ "irc-bold" ∧ "irc-fg" ++ s ≠ "irc-italic" ∧
    "irc-fg" ++ s ≠ "irc-underline" ∧ "irc-fg" ++ s ≠ "irc-strikethrough" ∧
    "irc-fg" ++ s ≠ "irc-monospace" ∧ ∀ t, "irc-fg" ++ s ≠ "irc-bg" ++ t := by
  refine ⟨?_, ?_, ?_, ?_, ?_, ?_⟩ <;> intros <;> apply data_ne <;> simp

theorem bg_ne (s : String) :
    "irc-bg" ++ s ≠ "irc-bold" ∧ "irc-bg" ++ s ≠ "irc-italic" ∧
    "irc-bg" ++ s ≠ "irc-underline" ∧ "irc-bg" ++ s ≠ "irc-strikethrough" ∧
    "irc-bg" ++ s ≠ "irc-monospace" := by
  refine ⟨?_, ?_, ?_, ?_, ?_⟩ <;> apply data_ne <;> simp

theorem attributes_length (f : Fragment) :
    (attributes f).length ≠ 0 ↔ ((classes f).length ≠ 0 ∨ truthy f.hexColor = true) := by
  have h1 : (" class=\"").length = 8 := rfl
  have h2 : (" style=\"color:#").length = 15 := rfl
  unfold attributes classAttribute styleAttribute
  by_cases hc : (classes f).length ≠ 0 <;> by_cases hh : truthy f.hexColor = true
  · simp only [if_pos hc, if_pos hh, String.length_append, h1, h2]
    constructor
    · intro _; exact Or.inl hc
    · intro _; omega
  · simp only [if_pos hc, if_neg hh, String.length_append, h1, String.length_empty]
    constructor
    · intro _; exact Or.inl hc
    · intro _; omega
  · simp only [if_neg hc, if_pos hh, String.length_append, h2, String.length_empty]
    constructor
    · intro _; exact Or.inr hh
    · intro _; omega
  · simp only [if_neg hc, if_neg hh, String.length_append, String.length_empty]
    constructor
    · intro h; exact absurd rfl h
    · rintro (h | h)
      · exact absurd h hc
      · exact absurd h hh

theorem createFragment_eq (escapeExpression : String → String) (f : Fragment) :
    createFragment escapeExpression f =
      if (classes f).length ≠ 0 ∨ truthy f.hexColor = true then
        "<span" ++ classAttribute f ++ styleAttribute f ++ ">" ++ escapeExpression f.text
          ++ "</span>"
      else escapeExpression f.text := by
  unfold createFragment
  by_cases h : (attributes f).length ≠ 0
  · rw [if_pos h, if_pos ((attributes_length f).1 h)]
    unfold attributes
    simp only [String.append_assoc]
  · rw [if_neg h, if_neg (fun h' => h ((attributes_length f).2 h'))]

/-- C9, as stated, fails: a fragment with `hexBgColor` set and `hexColor` unset gets no
inline style, and its markup is the bare escaped text. -/
theorem hexBgColor_alone_is_dropped :
    styleAttribute
        ⟨"x", false, none, none, false, false, false, false, none, some "00FF00"⟩ = "" ∧
    createFragment escapeSample
        ⟨"x", false, none, none, false, false, false, false, none, some "00FF00"⟩ = "x" := by
  decide

/-- C9, amended: `createFragment` wraps the escaped text in a `span` that carries the
class list, joined by spaces, in a `class` attribute and the inline style, when there is
a class or a non-empty `hexColor`, and returns the bare escaped text otherwise. The class
list holds `irc-bold`, `irc-italic`, `irc-underline`, `irc-strikethrough`,
`irc-monospace` exactly when the flag is set, and `irc-fgN`, `irc-bgN` exactly when
`textColor`, `bgColor` is `N`. The inline style is present exactly when `hexColor` is a
non-empty string: it holds `color:#h` for that `hexColor`, followed by
`;background-color:#b` exactly when `hexBgColor` is a non-empty string `b` as well;
without such a `hexColor` there is no inline style, whatever `hexBgColor` is. -/
theorem createFragment_classes_and_style (f : Fragment) :
    (∀ escapeExpression : String → String,
      createFragment escapeExpression f =
        if (classes f).length ≠ 0 ∨ truthy f.hexColor = true then
          "<span" ++ classAttribute f ++ styleAttribute f ++ ">" ++ escapeExpression f.text
            ++ "</span>"
        else escapeExpression f.text) ∧
    (classAttribute f =
      if (classes f).length ≠ 0 then " class=\"" ++ " ".intercalate (classes f) ++ "\""
      else "") ∧
    ("irc-bold" ∈ classes f ↔ f.bold = true) ∧
    ("irc-italic" ∈ classes f ↔ f.italic = true) ∧
    ("irc-underline" ∈ classes f ↔ f.underline = true) ∧
    ("irc-strikethrough" ∈ classes f ↔ f.strikethrough = true) ∧
    ("irc-monospace" ∈ classes f ↔ f.monospace = true) ∧
    (∀ n : Nat, "irc-fg" ++ toString n ∈ classes f ↔ f.textColor = some n) ∧
    (∀ n : Nat, "irc-bg" ++ toString n ∈ classes f ↔ f.bgColor = some n) ∧
    (truthy f.hexColor = false → styleAttribute f = "") ∧
    (truthy f.hexColor = true → truthy f.hexBgColor = false →
      styleAttribute f = " style=\"color:#" ++ strOf f.hexColor ++ "\"") ∧
    (truthy f.hexColor = true → truthy f.hexBgColor = true →
      styleAttribute f = " style=\"color:#" ++ strOf f.hexColor
        ++ ";background-color:#" ++ strOf f.hexBgColor ++ "\"") := by
  have hfg := fun s : String => fg_ne s
  have hbg := fun s : String => bg_ne s
  refine ⟨fun e => createFragment_eq e f, rfl, ?_, ?_, ?_, ?_, ?_, ?_, ?_, ?_, ?_, ?_⟩
  · rw [mem_classes]
    constructor
    · rintro (h | ⟨n, -, h⟩ | ⟨n, -, h⟩ | h | h | h | h)
      · exact h.1
      · exact absurd h.symm (hfg _).1
      · exact absurd h.symm (hbg _).1
      · exact absurd h.2 (by decide)
      · exact absurd h.2 (by decide)
      · exact absurd h.2 (by decide)
      · exact absurd h.2 (by decide)
    · intro h
      exact Or.inl ⟨h, rfl⟩
  · rw [mem_classes]
    constructor
    · rintro (h | ⟨n, -, h⟩ | ⟨n, -, h⟩ | h | h | h | h)
      · exact absurd h.2 (by decide)
      · exact absurd h.symm (hfg _).2.1
      · exact absurd h.symm (hbg _).2.1
      · exact h.1
      · exact absurd h.2 (by decide)
      · exact absurd h.2 (by decide)
      · exact absurd h.2 (by decide)
    · intro h
      exact Or.inr (Or.inr (Or.inr (Or.inl ⟨h, rfl⟩)))
  · rw [mem_classes]
    constructor
    · rintro (h | ⟨n, -, h⟩ | ⟨n, -, h⟩ | h | h | h | h)
      · exact absurd h.2 (by decide)
      · exact absurd h.symm (hfg _).2.2.1
      · exact absurd h.symm (hbg _).2.2.1
      · exact absurd h.2 (by decide)
      · exact h.1
      · exact absurd h.2 (by decide)
      · exact absurd h.2 (by decide)
    · intro h
      exact Or.inr (Or.inr (Or.inr (Or.inr (Or.inl ⟨h, rfl⟩))))
  · rw [mem_classes]
    constructor
    · rintro (h | ⟨n, -, h⟩ | ⟨n, -, h⟩ | h | h | h | h)
      · exact absurd h.2 (by decide)
      · exact absurd h.symm (hfg _).2.2.2.1
      · exact absurd h.symm (hbg _).2.2.2.1
      · exact absurd h.2 (by decide)
      · exact absurd h.2 (by decide)
      · exact h.1
      · exact absurd h.2 (by decide)
    · intro h
      exact Or.inr (Or.inr (Or.inr (Or.inr (Or.inr (Or.inl ⟨h, rfl⟩)))))
  · rw [mem_classes]
    constructor
    · rintro (h | ⟨n, -, h⟩ | ⟨n, -, h⟩ | h | h | h | h)
      · exact absurd h.2 (by decide)
      · exact absurd h.symm (hfg _).2.2.2.2.1
      · exact absurd h.symm (hbg _).2.2.2.2
      · exact absurd h.2 (by decide)
      · exact absurd h.2 (by decide)
      · exact absurd h.2 (by decide)
      · exact h.1
    · intro h
      exact Or.inr (Or.inr (Or.inr (Or.inr (Or.inr (Or.inr ⟨h, rfl⟩)))))
  · intro n
    rw [mem_classes]
    constructor
    · rintro (h | ⟨m, hm, h⟩ | ⟨m, -, h⟩ | h | h | h | h)
      · exact absurd h.2 (hfg _).1
      · rw [hm, toString_inj n m (prefix_cancel _ _ _ h)]
      · exact absurd h ((hfg _).2.2.2.2.2 _)
      · exact absurd h.2 (hfg _).2.1
      · exact absurd h.2 (hfg _).2.2.1
      · exact absurd h.2 (hfg _).2.2.2.1
      · exact absurd h.2 (hfg _).2.2.2.2.1
    · intro h
      exact Or.inr (Or.inl ⟨n, h, rfl⟩)
  · intro n
    rw [mem_classes]
    constructor
    · rintro (h | ⟨m, -, h⟩ | ⟨m, hm, h⟩ | h | h | h | h)
      · exact absurd h.2 (hbg _).1
      · exact absurd h.symm ((hfg _).2.2.2.2.2 _)
      · rw [hm, toString_inj n m (prefix_cancel _ _ _ h)]
      · exact absurd h.2 (hbg _).2.1
      · exact absurd h.2 (hbg _).2.2.1
      · exact absurd h.2 (hbg _).2.2.2.1
      · exact absurd h.2 (hbg _).2.2.2.2
    · intro h
      exact Or.inr (Or.inr (Or.inl ⟨n, h, rfl⟩))
  · intro h
    unfold styleAttribute
    rw [h]
    rfl
  · intro h h'
    unfold styleAttribute
    rw [h, h']
    simp
  · intro h h'
    unfold styleAttribute
    rw [h, h']
    simp [String.append_assoc]

theorem createFragment_classes_and_style_witness :
    createFragment escapeSample
        ⟨"a<b", true, some 0, none, false, false, false, false, some "FF0000", some "00FF00"⟩
      = "<span class=\"irc-bold irc-fg0\" style=\"color:#FF0000;background-color:#00FF00\">a&lt;b</span>" ∧
    "irc-fg" ++ toString 0 ∈ classes
        ⟨"a<b", true, some 0, none, false, false, false, false, some "FF0000", some "00FF00"⟩ ∧
    styleAttribute
        ⟨"a<b", true, some 0, none, false, false, false, false, some "FF0000", some "00FF00"⟩
      = " style=\"color:#" ++ strOf (some "FF0000") ++ ";background-color:#"
          ++ strOf (some "00FF00") ++ "\"" :=
  have h := createFragment_classes_and_style
    ⟨"a<b", true, some 0, none, false, false, false, false, some "FF0000", some "00FF00"⟩
  ⟨(h.1 escapeSample).trans (by decide), (h.2.2.2.2.2.2.2.1 0).2 rfl,
    h.2.2.2.2.2.2.2.2.2.2.2 (by decide) (by decide)⟩

/-! ## Delimiters of the markup -/

theorem digitChar_clean : ∀ d, d < 10 → isMarkup (Nat.digitChar d) = false := by
  decide

theorem markupOf_toString (n : Nat) : markupOf (toString n) = [] := by
  show (Nat.toDigits 10 n).filter isMarkup = []
  rcases Nat.eq_zero_or_pos n with hn | hn
  · rw [hn]
    decide
  · rw [toDigits_pos n hn, List.filter_eq_nil_iff]
    intro c hc
    obtain ⟨d, hd, rfl⟩ := List.mem_map.1 hc
    rw [digitChar_clean d (Nat.digits_lt_base (by norm_num) (List.mem_reverse.1 hd))]
    exact Bool.false_ne_true

theorem markupOf_class (f : Fragment) : ∀ c ∈ classes f, markupOf c = [] := by
  intro c hc
  rcases (mem_classes f c).1 hc with h | ⟨n, -, h⟩ | ⟨n, -, h⟩ | h | h | h | h
  · rw [h.2]; rfl
  · rw [h, markupOf_append, markupOf_toString]; rfl
  · rw [h, markupOf_append, markupOf_toString]; rfl
  · rw [h.2]; rfl
  · rw [h.2]; rfl
  · rw [h.2]; rfl
  · rw [h.2]; rfl

theorem markupOf_intercalate_go (sep : String) (hsep : markupOf sep = []) :
    ∀ (l : List String) (acc : String), markupOf acc = [] → (∀ s ∈ l, markupOf s = []) →
      markupOf (String.intercalate.go acc sep l) = [] := by
  intro l
  induction l with
  | nil => intro acc hacc _; exact hacc
  | cons a l ih =>
    intro acc hacc hl
    show markupOf (String.intercalate.go (acc ++ sep ++ a) sep l) = []
    apply ih
    · rw [markupOf_append, markupOf_append, hacc, hsep, hl a (by simp)]
      rfl
    · intro s hs
      exact hl s (List.mem_cons_of_mem _ hs)

theorem markupOf_intercalate (sep : String) (hsep : markupOf sep = []) (l : List String)
    (hl : ∀ s ∈ l, markupOf s = []) : markupOf (sep.intercalate l) = [] := by
  cases l with
  | nil => rfl
  | cons a l =>
    show markupOf (String.intercalate.go a sep l) = []
    exact markupOf_intercalate_go sep hsep l a (hl a (by simp))
      (fun s hs => hl s (List.mem_cons_of_mem _ hs))

theorem markupOf_classAttribute (f : Fragment) :
    markupOf (classAttribute f) =
      if (classes f).length ≠ 0 then markupOf " class=\"" ++ markupOf "\"" else [] := by
  unfold classAttribute
  split_ifs
  · rw [markupOf_append, markupOf_append,
      markupOf_intercalate " " rfl (classes f) (markupOf_class f), List.append_nil]
  · rfl

theorem markupOf_styleAttribute (f : Fragment)
    (h1 : markupOf (strOf f.hexColor) = []) (h2 : markupOf (strOf f.hexBgColor) = []) :
    markupOf (styleAttribute f) =
      if truthy f.hexColor = true then markupOf " style=\"color:#" ++ markupOf "\""
      else [] := by
  have hbg : markupOf ";background-color:#" = [] := rfl
  have hempty : markupOf "" = [] := rfl
  unfold styleAttribute
  split_ifs <;>
    simp only [markupOf_append, h1, h2, hbg, hempty, List.append_nil]

theorem createFragment_template (escapeExpression : String → String)
    (hesc : ∀ s, markupOf (escapeExpression s) = []) (f : Fragment)
    (h1 : markupOf (strOf f.hexColor) = []) (h2 : markupOf (strOf f.hexBgColor) = []) :
    markupOf (createFragment escapeExpression f) = fragmentTemplateMarkup f := by
  have hC := markupOf_classAttribute f
  have hS := markupOf_styleAttribute f h1 h2
  rw [createFragment_eq]
  unfold fragmentTemplateMarkup
  by_cases hor : (classes f).length ≠ 0 ∨ truthy f.hexColor = true
  · rw [if_pos hor, if_pos hor]
    simp only [markupOf_append, hesc, hC, hS, List.append_nil, List.append_assoc]
  · rw [if_neg hor, if_neg hor]
    exact hesc _

theorem fragments_template (escapeExpression : String → String)
    (hesc : ∀ s, markupOf (escapeExpression s) = []) (fs : List Fragment)
    (hhex : ∀ f ∈ fs, markupOf (strOf f.hexColor) = [] ∧ markupOf (strOf f.hexBgColor) = []) :
    markupOf (join (fs.map (createFragment escapeExpression)))
      = (fs.map fragmentTemplateMarkup).flatten := by
  induction fs with
  | nil => rfl
  | cons f fs ih =>
    have hf := hhex f (by simp)
    simp only [List.map_cons, join_cons, markupOf_append, List.flatten_cons,
      createFragment_template escapeExpression hesc f hf.1 hf.2,
      ih (fun g hg => hhex g (List.mem_cons_of_mem _ hg))]

theorem renderTextPart_template (escapeExpression colorClass : String → String)
    (hesc : ∀ s, markupOf (escapeExpression s) = [])
    (hcc : ∀ s, markupOf (colorClass s) = []) (p : TextPart)
    (hhex : ∀ f ∈ p.fragments,
      markupOf (strOf f.hexColor) = [] ∧ markupOf (strOf f.hexBgColor) = []) :
    markupOf (renderTextPart escapeExpression colorClass p) = partTemplateMarkup p := by
  unfold renderTextPart partTemplateMarkup
  split_ifs <;>
    simp only [markupOf_append, hesc, hcc, List.append_nil, List.append_assoc,
      fragments_template escapeExpression hesc p.fragments hhex]

/-- C8, as stated, fails: with an escape function whose output holds no delimiter, a
`hexColor` is embedded unescaped, and its `<`, `>` and double quote reach the markup
though no fixed template holds them. -/
theorem hexColor_reaches_markup_unescaped :
    (∀ s, markupOf (escapeSample s) = []) ∧
    renderTextParts escapeSample colorSample
        [⟨none, none, none, none,
          [⟨"x", false, none, none, false, false, false, false, some "\"><b>", none⟩]⟩]
      = "<span style=\"color:#\"><b>\">x</span>" ∧
    markupOf (renderTextParts escapeSample colorSample
        [⟨none, none, none, none,
          [⟨"x", false, none, none, false, false, false, false, some "\"><b>", none⟩]⟩])
      ≠ templateMarkup
        [⟨none, none, none, none,
          [⟨"x", false, none, none, false, false, false, false, some "\"><b>", none⟩]⟩] :=
  ⟨markupOf_escapeSample, by decide, by decide⟩

/-- C8, amended: fragment texts and link, channel and nick values reach the markup only
through the escape function, while `hexColor` and `hexBgColor` are embedded as they are.
Two text parts that differ only in texts and values with the same escaped forms render to
the same string. When the outputs of the escape function and of the colour class function
hold none of `<`, `>` and the double quote, the delimiters of the rendered string are
those of the rendering with every escaped text blanked; and when the `hexColor` and
`hexBgColor` values hold none either, they are exactly those of the fixed templates. -/
theorem parse_markup_from_templates (escapeExpression colorClass : String → String) :
    (∀ p q : TextPart, escapedAlike escapeExpression p q →
      renderTextPart escapeExpression colorClass p
        = renderTextPart escapeExpression colorClass q) ∧
    ((∀ s, markupOf (escapeExpression s) = []) → (∀ s, markupOf (colorClass s) = []) →
      ∀ textParts : List TextPart,
        markupOf (renderTextParts escapeExpression colorClass textParts)
          = markupOf (renderTextParts blank blank textParts)) ∧
    ((∀ s, markupOf (escapeExpression s) = []) → (∀ s, markupOf (colorClass s) = []) →
      ∀ textParts : List TextPart,
        (∀ p ∈ textParts, ∀ f ∈ p.fragments,
          markupOf (strOf f.hexColor) = [] ∧ markupOf (strOf f.hexBgColor) = []) →
        markupOf (renderTextParts escapeExpression colorClass textParts)
          = templateMarkup textParts) := by
  refine ⟨?_, ?_, ?_⟩
  · intro p q h
    obtain ⟨⟨hl, hl'⟩, ⟨hc, hc'⟩, he, ⟨hn, hn'⟩, hf⟩ := h
    unfold renderTextPart
    simp only [hl, hl', hc, hc', he, hn, hn',
      fragments_alike escapeExpression p.fragments q.fragments hf]
  · intro hesc hcc textParts
    unfold renderTextParts
    induction textParts with
    | nil => rfl
    | cons p ps ih =>
      simp only [List.map_cons, join_cons, markupOf_append, ih,
        renderTextPart_markup escapeExpression colorClass hesc hcc p]
  · intro hesc hcc textParts
    unfold renderTextParts templateMarkup
    induction textParts with
    | nil => intro _; rfl
    | cons p ps ih =>
      intro hhex
      simp only [List.map_cons, join_cons, markupOf_append, List.flatten_cons,
        ih (fun q hq => hhex q (List.mem_cons_of_mem _ hq)),
        renderTextPart_template escapeExpression colorClass hesc hcc p (hhex p (by simp))]

theorem parse_markup_from_templates_witness :
    markupOf (renderTextParts escapeSample colorSample
        [⟨some "http://x.com/?a=\"b\"", none, none, none,
          [⟨"<b>", true, none, none, false, false, false, false, some "FF0000", none⟩]⟩])
      = templateMarkup
        [⟨some "http://x.com/?a=\"b\"", none, none, none,
          [⟨"<b>", true, none, none, false, false, false, false, some "FF0000", none⟩]⟩] :=
  (parse_markup_from_templates escapeSample colorSample).2.2
    markupOf_escapeSample (fun _ => rfl) _ (by decide)

end Parse
